import Mathlib

/-!
Shallow embedding of the structured log-truncation engine of
`src/app_common/app_utils.py` (functions `do_log` and `do_log_2`) from the
LARS-Org/aws-common repository, together with theorems checking the
specification's claims about it.

Modelling conventions:
* Python strings are modelled as `List Char` (`Str`); Python `len`, slicing
  `s[:n]` and concatenation become `List.length`, `List.take` and `++`.
* Python values flowing through the renderer are modelled by the inductive
  type `PyVal` (strings, ints, bools, `None`, dicts, lists); dict keys by
  `PyKey` (strings, ints, bools, and tuples as the representative of
  hashable non-simple keys).
* `do_log_2`'s explicit deque-based traversal is embedded as a small-step
  machine: `step` is the body of the `while stack:` loop (returning the
  lines appended by one iteration and the frames pushed onto the stack) and
  `run` iterates it.  A Python exception is an `Except.error`; because
  `do_log_2` prints only after the loop finishes, an exception discards all
  output, which the `Except` monad reproduces.
-/

/-- Python strings, modelled as lists of characters. -/
abbrev Str : Type := List Char

/-- The character list of a Lean string literal. -/
def lit (s : String) : Str := s.data

/-- A single-quote character (written numerically). -/
def squote : Char := Char.ofNat 39

/-- A dash character; Python's `base_chars = "--"` is `List.replicate 2 dash`. -/
def dash : Char := '-'

/-- `ellipsis_chars = "…"`: a single character. -/
def ellipsisChars : Str := ['…']

/-- `len(ellipsis_chars)` = 1. -/
def ellipsisLen : Nat := ellipsisChars.length

/-- Decimal rendering of a natural number, as Python `str` does. -/
def natStr (n : Nat) : Str := (toString n).data

/-- Decimal rendering of an integer, as Python `str` does (`-` sign included). -/
def intStr (n : Int) : Str := (toString n).data

/-- Dictionary keys: Python's hashable values as they matter to `do_log_2`
(strings, ints, bools are the "simple" keys; tuples stand for the hashable
container keys, which are not simple). -/
inductive PyKey : Type where
  | ks (s : Str)
  | ki (n : Int)
  | kb (b : Bool)
  | kt (elems : List PyKey)
deriving Repr

/-- Values rendered by `do_log` / `do_log_2`: strings, numbers (ints),
booleans, `None`, dicts (ordered key/value pairs) and lists. -/
inductive PyVal : Type where
  | vStr (s : Str)
  | vInt (n : Int)
  | vBool (b : Bool)
  | vNone
  | vDict (es : List (PyKey × PyVal))
  | vList (l : List PyVal)
deriving Repr

mutual
/-- Python `==` on dictionary keys (`True == 1`, `False == 0`; strings never
equal numbers; tuples compare elementwise). -/
def pyKeyEq : PyKey → PyKey → Bool
  | .ks a, .ks b => a = b
  | .ki a, .ki b => a = b
  | .kb a, .kb b => a = b
  | .kb a, .ki n => (if a then (1 : Int) else 0) = n
  | .ki n, .kb a => n = (if a then (1 : Int) else 0)
  | .kt a, .kt b => pyKeyListEq a b
  | _, _ => false
/-- Elementwise Python `==` on tuple keys. -/
def pyKeyListEq : List PyKey → List PyKey → Bool
  | [], [] => true
  | a :: as, b :: bs => pyKeyEq a b && pyKeyListEq as bs
  | _, _ => false
end

/-- `_is_str_or_number_or_bool` applied to a dict key. -/
def pyKeySimple : PyKey → Bool
  | .ks _ => true
  | .ki _ => true
  | .kb _ => true
  | .kt _ => false

/-- `_is_str_or_number_or_bool(x)`: `isinstance(x, (str, Number, bool))`.
`None`, dicts and lists are not simple. -/
def pyValSimple : PyVal → Bool
  | .vStr _ => true
  | .vInt _ => true
  | .vBool _ => true
  | _ => false

/-- Python `str(key)` for a dict key.  `do_log_2` applies it only to simple
keys (inside the branch guarded by `keys_are_simple`), so the tuple case is
never exercised; it is given a placeholder value. -/
def pyKeyStr : PyKey → Str
  | .ks s => s
  | .ki n => intStr n
  | .kb true => lit "True"
  | .kb false => lit "False"
  | .kt _ => []

/-- Python `str(x)` for a rendered value.  `do_log` / `do_log_2` apply it
only to non-container values (simple dict/list members and default-branch
scalars), so the dict and list cases are never exercised; they are given
placeholder values. -/
def pyStr : PyVal → Str
  | .vStr s => s
  | .vInt n => intStr n
  | .vBool true => lit "True"
  | .vBool false => lit "False"
  | .vNone => lit "None"
  | .vDict _ => []
  | .vList _ => []

/-- Python `d[k]`: the value stored under the first key equal (`==`) to `k`.
`none` models a `KeyError`. -/
def dictLookup (es : List (PyKey × PyVal)) (k : PyKey) : Option PyVal :=
  (es.find? (fun e => pyKeyEq e.1 k)).map Prod.snd

/-- The sort key of `keys.sort(key=lambda k: len(str(k)) + len(str(current_obj[k])))`.
The lookup here uses the original key, so it always succeeds; the `Option`
default is unreachable. -/
def sortMeasure (es : List (PyKey × PyVal)) (k : PyKey) : Nat :=
  (pyKeyStr k).length + (match dictLookup es k with
    | some v => (pyStr v).length
    | none => 0)

/-- Insert `a` into an ascending sorted list, after strictly smaller elements
and before equal ones (the placement a stable sort gives an element coming
after the already-inserted ones). -/
def insSorted (m : PyKey → Nat) (a : PyKey) : List PyKey → List PyKey
  | [] => [a]
  | b :: bs => if m b < m a then b :: insSorted m a bs else a :: b :: bs

/-- Stable ascending sort by measure `m`.  Python's `list.sort` is stable and
ascending; a stable ascending sort's output is uniquely determined, so this
insertion sort computes exactly what `keys.sort(key=...)` computes. -/
def pySort (m : PyKey → Nat) : List PyKey → List PyKey
  | [] => []
  | a :: as => insSorted m a (pySort m as)

/-- Scalar truncation used by both renderers:
`s[:log_limit] + ellipsis_chars if len(s) > log_limit else s`. -/
def truncStr (s : Str) (logLimit : Nat) : Str :=
  if logLimit < s.length then s.take logLimit ++ ellipsisChars else s

/-- Errors a `do_log_2` run can raise: `KeyError` (dict lookup by the
stringified key fails) and `TypeError` (concatenating a non-string key in
the complex-dict branch). -/
inductive RunErr : Type where
  | keyError (k : Str)
  | typeError
deriving Repr

/-- `_indent(level, "--")`: the string `"--" * level`. -/
def indent2 (level : Nat) : Str := List.replicate (2 * level) dash

/-- The line `_indent(level) + f"[TYPE: {type(obj)}]; Key count = {n}"`
emitted for a dict (the Python `type` renders as `<class 'dict'>`). -/
def dictHeader (level n : Nat) : Str :=
  indent2 level ++ lit "[TYPE: <class " ++ [squote] ++ lit "dict" ++ [squote]
    ++ lit ">]; Key count = " ++ natStr n

/-- The line `_indent(level) + f"[TYPE: {type(obj)}]; Size = {n}; Sample:"`
emitted for a list. -/
def listHeader (level n : Nat) : Str :=
  indent2 level ++ lit "[TYPE: <class " ++ [squote] ++ lit "list" ++ [squote]
    ++ lit ">]; Size = " ++ natStr n ++ lit "; Sample:"

/-- The four fitting attempts of the simple-dict packing loop of `do_log_2`
(lines 229-297 of `app_utils.py`), as a pure function of the current line,
the item preamble and the stringified key and value.  Returns the fragment
`cur_key_and_val` appended to the line by the first attempt that fits, or
`none` when all four fail.  `chars_left` is computed in `Int` because the
Python subtractions can go negative. -/
def tryFit (ll : Nat) (line pre key val : Str) : Option Str :=
  -- First try: full key, full value
  let cur1 := pre ++ key ++ ['='] ++ val
  if line.length + cur1.length ≤ ll then some cur1 else
  -- Fourth try: partial key, partial value
  let try4 : Option Str :=
    let charsLeft : Int := (ll : Int) - line.length - pre.length
      - ellipsisLen - 1 - ellipsisLen
    if 1 < charsLeft then
      let partialLen := charsLeft.toNat / 2
      let pk := if key.length ≤ partialLen then key
        else key.take partialLen ++ ellipsisChars
      let pv := if val.length ≤ partialLen then val
        else val.take partialLen ++ ellipsisChars
      let cur := pre ++ pk ++ ['='] ++ pv
      if line.length + cur.length ≤ ll then some cur else none
    else none
  -- Third try: partial key, full value
  let try3 : Option Str :=
    let charsLeft : Int := (ll : Int) - line.length - pre.length
      - ellipsisLen - 1 - val.length
    if 0 < charsLeft then
      let pk := key.take charsLeft.toNat ++ ellipsisChars
      let cur := pre ++ pk ++ ['='] ++ val
      if line.length + cur.length ≤ ll then some cur else try4
    else try4
  -- Second try: full key, partial value
  let cur2base := pre ++ key ++ ['=']
  let charsLeft2 : Int := (ll : Int) - line.length - cur2base.length - ellipsisLen
  if 0 < charsLeft2 then
    let cur2 := cur2base ++ (val.take charsLeft2.toNat ++ ellipsisChars)
    if line.length + cur2.length ≤ ll then some cur2 else try3
  else try3

/-- The simple-dict packing loop of `do_log_2` (lines 208-310), over the
sorted key list.  `indentE` is `indented_empty_line`.  Returns the flushed
lines and, as a ghost second component, the `(key, value)` string pairs in
the order they were appended to a line.  One iteration of the Python loop
is one unfolding: fetch `key = str(keys[i])`, look up `value =
str(current_obj[key])` (a `KeyError` when no stored key equals the
stringified key, e.g. for numeric keys), flush a full line, then attempt
the four fits; when none fits a non-empty line is flushed and the same key
retried (`key_idx -= 1`), while on an empty line the pair is dropped. -/
def packPairs (es : List (PyKey × PyVal)) (ll : Nat) (indentE : Str) :
    List PyKey → Str → Bool → Except RunErr (List Str × List (Str × Str))
  | [], line, _ =>
    -- after the loop: `if line != indented_empty_line: output_lines.append(line)`
    .ok (if line = indentE then [] else [line], [])
  | k :: rest, line, onFirst =>
    -- `key = str(keys[key_idx])`, `value = str(current_obj[key])`:
    -- the lookup uses the stringified key (a `KeyError` when no stored key
    -- equals it, e.g. for numeric keys)
    match dictLookup es (.ks (pyKeyStr k)) with
    | none => .error (.keyError (pyKeyStr k))
    | some v =>
      if ll ≤ line.length then
        -- `if len(line) >= log_limit:` flush; the retry check then sees the
        -- fresh indented line, so no retry can follow on this iteration.
        match tryFit ll indentE [] (pyKeyStr k) (pyStr v) with
        | some cur =>
          match packPairs es ll indentE rest (indentE ++ cur) false with
          | .error e => .error e
          | .ok (ls, g) => .ok (line :: ls, (pyKeyStr k, pyStr v) :: g)
        | none =>
          -- pair dropped (`line == indented_empty_line` at the retry check)
          match packPairs es ll indentE rest indentE false with
          | .error e => .error e
          | .ok (ls, g) => .ok (line :: ls, g)
      else
        match tryFit ll line (if onFirst then [] else [' '])
            (pyKeyStr k) (pyStr v) with
        | some cur =>
          match packPairs es ll indentE rest (line ++ cur) false with
          | .error e => .error e
          | .ok (ls, g) => .ok (ls, (pyKeyStr k, pyStr v) :: g)
        | none =>
          if hR : line = indentE then
            -- pair dropped, `on_first_item_in_line` stays `False`
            match packPairs es ll indentE rest line false with
            | .error e => .error e
            | .ok (ls, g) => .ok (ls, g)
          else
            -- flush and retry the same pair on a fresh line
            match packPairs es ll indentE (k :: rest) indentE true with
            | .error e => .error e
            | .ok (ls, g) => .ok (line :: ls, g)
termination_by ks line _ => (ks.length, if line = indentE then 0 else 1)
decreasing_by
  · exact Prod.Lex.left _ _ (by simp only [List.length_cons]; omega)
  · exact Prod.Lex.left _ _ (by simp only [List.length_cons]; omega)
  · exact Prod.Lex.left _ _ (by simp only [List.length_cons]; omega)
  · exact Prod.Lex.left _ _ (by simp only [List.length_cons]; omega)
  · exact Prod.Lex.right _ (by simp [hR])

/-- The two fitting attempts of the simple-list packing loop of `do_log_2`
(lines 346-366): full element, then element truncated to the remaining
budget. -/
def tryFitElem (ll : Nat) (line pre prefixS elem : Str) : Option Str :=
  let cur1 := pre ++ prefixS ++ elem
  if line.length + cur1.length ≤ ll then some cur1 else
  let cur2base := pre ++ prefixS
  let charsLeft : Int := (ll : Int) - line.length - cur2base.length - ellipsisLen
  if 0 < charsLeft then
    let cur2 := cur2base ++ (elem.take charsLeft.toNat ++ ellipsisChars)
    if line.length + cur2.length ≤ ll then some cur2 else none
  else none

/-- The simple-list packing loop of `do_log_2` (lines 326-379), over the
enumerated sampled elements (index, stringified element).  Ghost second
component: the `(index, element)` pairs in the order they were appended.
Structure as in `packPairs` (flush full lines, retry a failed element once
on a fresh line, drop it when even the fresh line cannot take it). -/
def packElems (ll : Nat) (indentE : Str) :
    List (Nat × Str) → Str → Bool → List Str × List (Nat × Str)
  | [], line, _ => (if line = indentE then [] else [line], [])
  | (i, elem) :: rest, line, onFirst =>
    -- `cur_elem_prefix = "[" + str(elem_idx - 1) + "]="`
    if ll ≤ line.length then
      match tryFitElem ll indentE [] (['['] ++ natStr i ++ lit "]=") elem with
      | some cur =>
        let (ls, g) := packElems ll indentE rest (indentE ++ cur) false
        (line :: ls, (i, elem) :: g)
      | none =>
        let (ls, g) := packElems ll indentE rest indentE false
        (line :: ls, g)
    else
      match tryFitElem ll line (if onFirst then [] else [' '])
          (['['] ++ natStr i ++ lit "]=") elem with
      | some cur =>
        let (ls, g) := packElems ll indentE rest (line ++ cur) false
        (ls, (i, elem) :: g)
      | none =>
        if hR : line = indentE then
          packElems ll indentE rest line false
        else
          let (ls, g) := packElems ll indentE ((i, elem) :: rest) indentE true
          (line :: ls, g)
termination_by elems line _ => (elems.length, if line = indentE then 0 else 1)
decreasing_by
  · exact Prod.Lex.left _ _ (by simp only [List.length_cons]; omega)
  · exact Prod.Lex.left _ _ (by simp only [List.length_cons]; omega)
  · exact Prod.Lex.left _ _ (by simp only [List.length_cons]; omega)
  · exact Prod.Lex.left _ _ (by simp only [List.length_cons]; omega)
  · exact Prod.Lex.right _ (by simp [hR])

/-- The complex-dict branch's key lines (lines 314-316): for each entry of
the reversed dict, `_indent(level + 1) + key`; concatenating a non-string
key onto the indent string is a Python `TypeError`. -/
def keyLines (indentK : Str) : List (PyKey × PyVal) → Except RunErr (List Str)
  | [] => .ok []
  | (PyKey.ks s, _) :: rest =>
    match keyLines indentK rest with
    | .error e => .error e
    | .ok ls => .ok ((indentK ++ s) :: ls)
  | (_, _) :: _ => .error .typeError

mutual
/-- Structural size of a value (every constructor counts 1). -/
def pySize : PyVal → Nat
  | .vStr _ => 1
  | .vInt _ => 1
  | .vBool _ => 1
  | .vNone => 1
  | .vDict es => 1 + pySizeEntries es
  | .vList l => 1 + pySizeList l
/-- Sum of the sizes of a dict's values. -/
def pySizeEntries : List (PyKey × PyVal) → Nat
  | [] => 0
  | e :: rest => pySize e.2 + pySizeEntries rest
/-- Sum of the sizes of a list's elements. -/
def pySizeList : List PyVal → Nat
  | [] => 0
  | v :: rest => pySize v + pySizeList rest
end

/-- Sum of the sizes of the values on the traversal stack. -/
def stackSize : List (PyVal × Nat) → Nat
  | [] => 0
  | f :: rest => pySize f.1 + stackSize rest

/-- One iteration of `do_log_2`'s `while stack:` loop on the popped frame
`(current_obj, level)`: the lines this iteration appends to `output_lines`
and the frames it pushes (head = next to pop, matching the deque). -/
def step (ll ss : Nat) : PyVal × Nat → Except RunErr (List Str × List (PyVal × Nat))
  | (.vStr s, level) =>
    .ok ([indent2 level ++ truncStr s ll], [])
  | (.vDict es, level) =>
    let header := dictHeader level es.length
    if es.all (fun e => pyKeySimple e.1) && es.all (fun e => pyValSimple e.2) then
      -- keys and values all simple: pack `key=value` pairs into lines,
      -- after sorting a copy of the key list
      let sortedKeys := pySort (sortMeasure es) (es.map Prod.fst)
      match packPairs es ll (indent2 (level + 1)) sortedKeys
          (indent2 (level + 1)) true with
      | .error e => .error e
      | .ok (ls, _) => .ok (header :: ls, [])
    else
      -- complex branch: key lines in reversed order, values pushed so the
      -- first entry's value is popped first
      match keyLines (indent2 (level + 1)) es.reverse with
      | .error e => .error e
      | .ok kls => .ok (header :: kls, es.map (fun e => (e.2, level + 2)))
  | (.vList l, level) =>
    let header := listHeader level l.length
    if l.all pyValSimple then
      let elems := (List.take (min l.length ss) l).enum.map
        (fun p => (p.1, pyStr p.2))
      let (ls, _) := packElems ll (indent2 (level + 1)) elems
        (indent2 (level + 1)) true
      .ok (header :: ls, [])
    else
      -- note: the sample here is the hardcoded `current_obj[:2]`,
      -- not `list_sample_size`
      .ok ([header], (List.take 2 l).map (fun v => (v, level + 1)))
  | (v, level) =>
    -- default branch: `str(current_obj)` truncated
    .ok ([indent2 level ++ truncStr (pyStr v) ll], [])

theorem pySize_pos (v : PyVal) : 0 < pySize v := by
  cases v <;> simp [pySize]

theorem stackSize_append (s t : List (PyVal × Nat)) :
    stackSize (s ++ t) = stackSize s + stackSize t := by
  induction s with
  | nil => simp [stackSize]
  | cons f rest ih => simp [stackSize, ih]; omega

theorem stackSize_map_entries (es : List (PyKey × PyVal)) (m : Nat) :
    stackSize (es.map (fun e => (e.2, m))) = pySizeEntries es := by
  induction es with
  | nil => simp [stackSize, pySizeEntries]
  | cons e rest ih => simp [stackSize, pySizeEntries, ih]

theorem stackSize_map_list (l : List PyVal) (m : Nat) :
    stackSize (l.map (fun v => (v, m))) = pySizeList l := by
  induction l with
  | nil => simp [stackSize, pySizeList]
  | cons v rest ih => simp [stackSize, pySizeList, ih]

theorem pySizeList_take_le (n : Nat) (l : List PyVal) :
    pySizeList (List.take n l) ≤ pySizeList l := by
  induction l generalizing n with
  | nil => simp [List.take_nil]
  | cons v rest ih =>
    cases n with
    | zero => simp [pySizeList, List.take_zero]
    | succ n =>
      simp only [List.take_succ_cons, pySizeList]
      have := ih n
      omega

/-- Frames pushed by one step weigh strictly less than the popped value. -/
theorem step_pushed_lt (ll ss : Nat) (f : PyVal × Nat)
    (ls : List Str) (pushed : List (PyVal × Nat))
    (h : step ll ss f = .ok (ls, pushed)) : stackSize pushed < pySize f.1 := by
  obtain ⟨v, level⟩ := f
  cases v with
  | vStr s =>
    simp only [step, Except.ok.injEq, Prod.mk.injEq] at h
    rw [← h.2]
    simp [stackSize, pySize]
  | vInt n =>
    simp only [step, Except.ok.injEq, Prod.mk.injEq] at h
    rw [← h.2]
    simp [stackSize, pySize]
  | vBool b =>
    simp only [step, Except.ok.injEq, Prod.mk.injEq] at h
    rw [← h.2]
    simp [stackSize, pySize]
  | vNone =>
    simp only [step, Except.ok.injEq, Prod.mk.injEq] at h
    rw [← h.2]
    simp [stackSize, pySize]
  | vDict es =>
    simp only [step] at h
    split at h
    · split at h
      · exact absurd h (by simp)
      · simp only [Except.ok.injEq, Prod.mk.injEq] at h
        rw [← h.2]
        simp only [stackSize, pySize]
        omega
    · split at h
      · exact absurd h (by simp)
      · simp only [Except.ok.injEq, Prod.mk.injEq] at h
        rw [← h.2, stackSize_map_entries]
        simp only [pySize]
        omega
  | vList l =>
    simp only [step] at h
    split at h
    · simp only [Except.ok.injEq, Prod.mk.injEq] at h
      rw [← h.2]
      simp only [stackSize, pySize]
      omega
    · simp only [Except.ok.injEq, Prod.mk.injEq] at h
      rw [← h.2, stackSize_map_list]
      simp only [pySize]
      have := pySizeList_take_le 2 l
      omega

/-- `do_log_2`'s `while stack:` loop: pop a frame, run `step`, push its
frames, accumulate its lines.  Output is the final `output_lines`;
an exception discards everything. -/
def run (ll ss : Nat) : List (PyVal × Nat) → Except RunErr (List Str)
  | [] => .ok []
  | f :: rest =>
    match hstep : step ll ss f with
    | .error e => .error e
    | .ok (ls, pushed) =>
      match run ll ss (pushed ++ rest) with
      | .error e => .error e
      | .ok more => .ok (ls ++ more)
termination_by s => stackSize s
decreasing_by
  have := step_pushed_lt ll ss f ls pushed hstep
  simp [stackSize, stackSize_append]
  omega

/-- `do_log_2(obj, title, log_limit, list_sample_size)`: the `output_lines`
list accumulated by the traversal started at `deque([(obj, 0)])` (the lines
are printed joined by newlines; a raised exception reaches the caller and
nothing is printed). -/
def do_log_2 (obj : PyVal) (ll ss : Nat) : Except RunErr (List Str) :=
  run ll ss [(obj, 0)]

example : lit "ab" = ['a', 'b'] := by decide

theorem run_nil (ll ss : Nat) : run ll ss [] = .ok [] := by
  rw [run]

theorem run_cons (ll ss : Nat) (f : PyVal × Nat) (rest : List (PyVal × Nat)) :
    run ll ss (f :: rest) =
      match step ll ss f with
      | .error e => .error e
      | .ok (ls, pushed) =>
        match run ll ss (pushed ++ rest) with
        | .error e => .error e
        | .ok more => .ok (ls ++ more) := by
  rw [run]
  cases h : step ll ss f with
  | error e => rfl
  | ok p => rfl

/-! ### `do_log` (lines 78-141 of `app_utils.py`)

The older renderer: same deque traversal, `_indent(level) = "\n" + "---" *
level`, every line ends in `"\n"`, dicts always recurse (key line per entry,
reversed iteration), lists always sample the first two elements, and only
scalar leaves are truncated.  The joined output is `"".join(output_lines)`. -/

/-- `_indent(level)` of `do_log`: a newline then `"---" * level`. -/
def indent3 (level : Nat) : Str := '\n' :: List.replicate (3 * level) dash

/-- The `f"[TYPE: {type(obj)}]\n"` line of `do_log` for a dict. -/
def dictHeaderL (level : Nat) : Str :=
  indent3 level ++ lit "[TYPE: <class " ++ [squote] ++ lit "dict" ++ [squote]
    ++ lit ">]" ++ ['\n']

/-- The `f"[TYPE: {type(obj)}] Sample:\n"` line of `do_log` for a list. -/
def listHeaderL (level : Nat) : Str :=
  indent3 level ++ lit "[TYPE: <class " ++ [squote] ++ lit "list" ++ [squote]
    ++ lit ">] Sample:" ++ ['\n']

/-- Key lines of `do_log`'s dict branch: `_indent(level + 1) + key + "\n"`
per reversed entry; a non-string key raises a `TypeError`. -/
def keyLinesL (indentK : Str) : List (PyKey × PyVal) → Except RunErr (List Str)
  | [] => .ok []
  | (PyKey.ks s, _) :: rest =>
    match keyLinesL indentK rest with
    | .error e => .error e
    | .ok ls => .ok ((indentK ++ s ++ ['\n']) :: ls)
  | (_, _) :: _ => .error .typeError

/-- One iteration of `do_log`'s `while stack:` loop. -/
def stepL (ll : Nat) : PyVal × Nat → Except RunErr (List Str × List (PyVal × Nat))
  | (.vStr s, level) =>
    .ok ([indent3 level ++ truncStr s ll ++ ['\n']], [])
  | (.vDict es, level) =>
    match keyLinesL (indent3 (level + 1)) es.reverse with
    | .error e => .error e
    | .ok kls => .ok (dictHeaderL level :: kls, es.map (fun e => (e.2, level + 2)))
  | (.vList l, level) =>
    .ok ([listHeaderL level], (List.take 2 l).map (fun v => (v, level + 1)))
  | (v, level) =>
    .ok ([indent3 level ++ truncStr (pyStr v) ll ++ ['\n']], [])

/-- Frames pushed by one `do_log` step weigh strictly less than the popped
value. -/
theorem stepL_pushed_lt (ll : Nat) (f : PyVal × Nat)
    (ls : List Str) (pushed : List (PyVal × Nat))
    (h : stepL ll f = .ok (ls, pushed)) : stackSize pushed < pySize f.1 := by
  obtain ⟨v, level⟩ := f
  cases v with
  | vStr s =>
    simp only [stepL, Except.ok.injEq, Prod.mk.injEq] at h
    rw [← h.2]
    simp [stackSize, pySize]
  | vInt n =>
    simp only [stepL, Except.ok.injEq, Prod.mk.injEq] at h
    rw [← h.2]
    simp [stackSize, pySize]
  | vBool b =>
    simp only [stepL, Except.ok.injEq, Prod.mk.injEq] at h
    rw [← h.2]
    simp [stackSize, pySize]
  | vNone =>
    simp only [stepL, Except.ok.injEq, Prod.mk.injEq] at h
    rw [← h.2]
    simp [stackSize, pySize]
  | vDict es =>
    simp only [stepL] at h
    split at h
    · exact absurd h (by simp)
    · simp only [Except.ok.injEq, Prod.mk.injEq] at h
      rw [← h.2, stackSize_map_entries]
      simp only [pySize]
      omega
  | vList l =>
    simp only [stepL, Except.ok.injEq, Prod.mk.injEq] at h
    rw [← h.2, stackSize_map_list]
    simp only [pySize]
    have := pySizeList_take_le 2 l
    omega

/-- `do_log`'s `while stack:` loop. -/
def runL (ll : Nat) : List (PyVal × Nat) → Except RunErr (List Str)
  | [] => .ok []
  | f :: rest =>
    match hstep : stepL ll f with
    | .error e => .error e
    | .ok (ls, pushed) =>
      match runL ll (pushed ++ rest) with
      | .error e => .error e
      | .ok more => .ok (ls ++ more)
termination_by s => stackSize s
decreasing_by
  have := stepL_pushed_lt ll f ls pushed hstep
  simp [stackSize, stackSize_append]
  omega

theorem runL_nil (ll : Nat) : runL ll [] = .ok [] := by
  rw [runL]

theorem runL_cons (ll : Nat) (f : PyVal × Nat) (rest : List (PyVal × Nat)) :
    runL ll (f :: rest) =
      match stepL ll f with
      | .error e => .error e
      | .ok (ls, pushed) =>
        match runL ll (pushed ++ rest) with
        | .error e => .error e
        | .ok more => .ok (ls ++ more) := by
  rw [runL]
  cases h : stepL ll f with
  | error e => rfl
  | ok p => rfl

/-- `do_log(obj, title, log_limit)`: the `output_lines` accumulated by the
traversal started at `deque([(obj, 0)])`, printed joined by `""`. -/
def do_log (obj : PyVal) (ll : Nat) : Except RunErr (List Str) :=
  runL ll [(obj, 0)]

/-! ### Decomposition of the stack traversal

Frames pushed on the deque are fully processed before anything beneath
them, so a run over a stack splits as the concatenation of the runs of its
frames (errors propagating left to right). -/

theorem run_append_aux (ll ss : Nat) :
    ∀ (n : Nat) (s t : List (PyVal × Nat)), stackSize s ≤ n →
      run ll ss (s ++ t) =
        match run ll ss s with
        | .error e => .error e
        | .ok a =>
          match run ll ss t with
          | .error e => .error e
          | .ok b => .ok (a ++ b) := by
  intro n
  induction n with
  | zero =>
    intro s t hs
    cases s with
    | nil =>
      rw [List.nil_append, run_nil]
      cases run ll ss t <;> simp
    | cons f s2 =>
      exfalso
      have := pySize_pos f.1
      simp only [stackSize] at hs
      omega
  | succ n ih =>
    intro s t hs
    cases s with
    | nil =>
      rw [List.nil_append, run_nil]
      cases run ll ss t <;> simp
    | cons f s2 =>
      rw [List.cons_append, run_cons, run_cons]
      cases hstep : step ll ss f with
      | error e => rfl
      | ok p =>
        obtain ⟨ls, pushed⟩ := p
        have hlt := step_pushed_lt ll ss f ls pushed hstep
        have ih2 := ih (pushed ++ s2) t (by
          simp only [stackSize, stackSize_append] at hs ⊢
          omega)
        dsimp only
        rw [← List.append_assoc, ih2]
        cases run ll ss (pushed ++ s2) with
        | error e => rfl
        | ok a =>
          cases run ll ss t <;> simp

theorem run_append (ll ss : Nat) (s t : List (PyVal × Nat)) :
    run ll ss (s ++ t) =
      match run ll ss s with
      | .error e => .error e
      | .ok a =>
        match run ll ss t with
        | .error e => .error e
        | .ok b => .ok (a ++ b) :=
  run_append_aux ll ss (stackSize s) s t (Nat.le_refl _)

theorem runL_append_aux (ll : Nat) :
    ∀ (n : Nat) (s t : List (PyVal × Nat)), stackSize s ≤ n →
      runL ll (s ++ t) =
        match runL ll s with
        | .error e => .error e
        | .ok a =>
          match runL ll t with
          | .error e => .error e
          | .ok b => .ok (a ++ b) := by
  intro n
  induction n with
  | zero =>
    intro s t hs
    cases s with
    | nil =>
      rw [List.nil_append, runL_nil]
      cases runL ll t <;> simp
    | cons f s2 =>
      exfalso
      have := pySize_pos f.1
      simp only [stackSize] at hs
      omega
  | succ n ih =>
    intro s t hs
    cases s with
    | nil =>
      rw [List.nil_append, runL_nil]
      cases runL ll t <;> simp
    | cons f s2 =>
      rw [List.cons_append, runL_cons, runL_cons]
      cases hstep : stepL ll f with
      | error e => rfl
      | ok p =>
        obtain ⟨ls, pushed⟩ := p
        have hlt := stepL_pushed_lt ll f ls pushed hstep
        have ih2 := ih (pushed ++ s2) t (by
          simp only [stackSize, stackSize_append] at hs ⊢
          omega)
        dsimp only
        rw [← List.append_assoc, ih2]
        cases runL ll (pushed ++ s2) with
        | error e => rfl
        | ok a =>
          cases runL ll t <;> simp

theorem runL_append (ll : Nat) (s t : List (PyVal × Nat)) :
    runL ll (s ++ t) =
      match runL ll s with
      | .error e => .error e
      | .ok a =>
        match runL ll t with
        | .error e => .error e
        | .ok b => .ok (a ++ b) :=
  runL_append_aux ll (stackSize s) s t (Nat.le_refl _)

/-- The concatenated renderings of a list of values, each rendered alone at
level `lvl` (errors propagate left to right). -/
def runBlocks (ll ss lvl : Nat) : List PyVal → Except RunErr (List Str)
  | [] => .ok []
  | v :: vs =>
    match run ll ss [(v, lvl)] with
    | .error e => .error e
    | .ok a =>
      match runBlocks ll ss lvl vs with
      | .error e => .error e
      | .ok b => .ok (a ++ b)

theorem run_frames (ll ss lvl : Nat) (vs : List PyVal) :
    run ll ss (vs.map (fun v => (v, lvl))) = runBlocks ll ss lvl vs := by
  induction vs with
  | nil => simp [run_nil, runBlocks]
  | cons v vs ih =>
    have h := run_append ll ss [(v, lvl)] (vs.map (fun v => (v, lvl)))
    simp only [List.map_cons, List.singleton_append] at h
    simp only [List.map_cons]
    rw [h, ih, runBlocks]

/-- `insSorted` inserts its element: a permutation of `cons`. -/
theorem insSorted_perm (m : PyKey → Nat) (a : PyKey) (l : List PyKey) :
    List.Perm (insSorted m a l) (a :: l) := by
  induction l with
  | nil => simp [insSorted]
  | cons b bs ih =>
    simp only [insSorted]
    split
    · exact List.Perm.trans (List.Perm.cons b ih) (List.Perm.swap a b bs)
    · exact List.Perm.refl _

/-- The stable sort permutes the key list. -/
theorem pySort_perm (m : PyKey → Nat) (l : List PyKey) :
    List.Perm (pySort m l) l := by
  induction l with
  | nil => exact List.Perm.refl _
  | cons a as ih =>
    exact List.Perm.trans (insSorted_perm m a (pySort m as)) (List.Perm.cons a ih)

/-! ### Properties of the fitting cascade -/

set_option maxHeartbeats 1600000 in
/-- A successfully fitted fragment keeps the line within `log_limit`. -/
theorem tryFit_some_le (ll : Nat) (line pre key val cur : Str)
    (h : tryFit ll line pre key val = some cur) :
    line.length + cur.length ≤ ll := by
  unfold tryFit at h
  dsimp only at h
  repeat' split at h
  all_goals (try cases h)
  all_goals omega

set_option maxHeartbeats 1600000 in
/-- A fitted fragment is nonempty (it contains at least the `=` sign). -/
theorem tryFit_some_pos (ll : Nat) (line pre key val cur : Str)
    (h : tryFit ll line pre key val = some cur) : 0 < cur.length := by
  unfold tryFit at h
  dsimp only at h
  repeat' split at h
  all_goals (try cases h)
  all_goals (simp [List.length_append])

/-- Length of a possibly-truncated piece in the fourth fitting attempt. -/
theorem partial_len_le (s : Str) (pl : Nat) :
    (if s.length ≤ pl then s else s.take pl ++ ellipsisChars).length ≤ pl + 1 := by
  split
  · omega
  · simp only [List.length_append, List.length_take, ellipsisChars,
      List.length_singleton]
    omega

set_option maxHeartbeats 1600000 in
/-- On a fresh indented line with an empty preamble, the cascade always
fits something once `log_limit` exceeds the indent width by at least 5
(the fourth attempt then always succeeds). -/
theorem tryFit_fresh_ne_none (ll : Nat) (indentE key val : Str)
    (h5 : indentE.length + 5 ≤ ll) :
    tryFit ll indentE [] key val ≠ none := by
  intro h
  unfold tryFit at h
  dsimp only at h
  repeat' split at h
  all_goals (try cases h)
  all_goals
    exfalso
    simp only [List.length_append, List.nil_append, List.length_nil,
      List.length_cons, List.length_take, ellipsisChars, ellipsisLen,
      List.length_singleton] at *
    omega

set_option maxHeartbeats 1600000 in
/-- A successfully fitted element fragment keeps the line within `log_limit`. -/
theorem tryFitElem_some_le (ll : Nat) (line pre prefixS elem cur : Str)
    (h : tryFitElem ll line pre prefixS elem = some cur) :
    line.length + cur.length ≤ ll := by
  unfold tryFitElem at h
  dsimp only at h
  repeat' split at h
  all_goals (try cases h)
  all_goals omega

set_option maxHeartbeats 1600000 in
/-- A fitted element fragment contains at least its index prefix. -/
theorem tryFitElem_some_pos (ll : Nat) (line pre prefixS elem cur : Str)
    (h : tryFitElem ll line pre prefixS elem = some cur) :
    prefixS.length ≤ cur.length := by
  unfold tryFitElem at h
  dsimp only at h
  repeat' split at h
  all_goals (try cases h)
  all_goals (simp [List.length_append]; omega)

set_option maxHeartbeats 1600000 in
/-- On a fresh indented line with an empty preamble, the element cascade
always fits something once `log_limit` exceeds the indent plus prefix
width by at least 2 (the truncated second attempt then always fits). -/
theorem tryFitElem_fresh_ne_none (ll : Nat) (indentE prefixS elem : Str)
    (h2 : indentE.length + prefixS.length + 2 ≤ ll) :
    tryFitElem ll indentE [] prefixS elem ≠ none := by
  intro h
  unfold tryFitElem at h
  dsimp only at h
  repeat' split at h
  all_goals (try cases h)
  all_goals
    exfalso
    simp only [List.length_append, List.nil_append, List.length_nil,
      List.length_cons, List.length_take, ellipsisChars, ellipsisLen,
      List.length_singleton] at *
    omega

/-! ### Line-length bound for the packing loops -/

set_option maxHeartbeats 800000 in
/-- Every line flushed by the dict packing loop is bounded by
`max log_limit (indent width)`: lines holding packed content never exceed
`log_limit`, and the only other flushed lines are bare indents. -/
theorem packPairs_lines_le (es : List (PyKey × PyVal)) (ll : Nat) (indentE : Str) :
    ∀ ks line onFirst, ∀ ls : List Str, ∀ g : List (Str × Str),
      packPairs es ll indentE ks line onFirst = .ok (ls, g) →
      (line = indentE ∨ line.length ≤ ll) →
      ∀ l ∈ ls, l.length ≤ max ll indentE.length := by
  intro ks line onFirst
  induction ks, line, onFirst using packPairs.induct es ll indentE with
  | case1 line onFirst =>
    intro ls g h hline l hl
    rw [packPairs] at h
    split at h
    · simp only [Except.ok.injEq, Prod.mk.injEq] at h
      rw [← h.1] at hl
      simp at hl
    · simp only [Except.ok.injEq, Prod.mk.injEq] at h
      rw [← h.1] at hl
      simp at hl
      subst hl
      rcases hline with hline | hline
      · simp_all
      · omega
  | case2 k rest line onFirst hlook =>
    intro ls g h hline l hl
    rw [packPairs, hlook] at h
    cases h
  | case3 k rest line onFirst v hlook htop cur hfit e hrec =>
    intro ls g h hline l hl
    rw [packPairs, hlook] at h
    simp only [if_pos htop, hfit, hrec] at h
    cases h
  | case4 k rest line onFirst v hlook htop cur hfit ls2 g2 hrec ih =>
    intro ls g h hline l hl
    rw [packPairs, hlook] at h
    simp only [if_pos htop, hfit, hrec, Except.ok.injEq, Prod.mk.injEq] at h
    rw [← h.1] at hl
    rcases List.mem_cons.1 hl with hll | hll
    · subst hll
      rcases hline with hline | hline
      · subst hline; omega
      · omega
    · refine ih ls2 g2 hrec (Or.inr ?_) l hll
      have := tryFit_some_le ll indentE [] (pyKeyStr k) (pyStr v) cur hfit
      simp only [List.length_append]
      omega
  | case5 k rest line onFirst v hlook htop hfit e hrec =>
    intro ls g h hline l hl
    rw [packPairs, hlook] at h
    simp only [if_pos htop, hfit, hrec] at h
    cases h
  | case6 k rest line onFirst v hlook htop hfit ls2 g2 hrec ih =>
    intro ls g h hline l hl
    rw [packPairs, hlook] at h
    simp only [if_pos htop, hfit, hrec, Except.ok.injEq, Prod.mk.injEq] at h
    rw [← h.1] at hl
    rcases List.mem_cons.1 hl with hll | hll
    · subst hll
      rcases hline with hline | hline
      · subst hline; omega
      · omega
    · exact ih ls2 g2 hrec (Or.inl rfl) l hll
  | case7 k rest line onFirst v hlook htop cur hfit e hrec =>
    intro ls g h hline l hl
    simp only [dite_eq_ite] at hfit
    rw [packPairs, hlook] at h
    simp only [if_neg htop, hfit, hrec] at h
    cases h
  | case8 k rest line onFirst v hlook htop cur hfit ls2 g2 hrec ih =>
    intro ls g h hline l hl
    simp only [dite_eq_ite] at hfit
    rw [packPairs, hlook] at h
    simp only [if_neg htop, hfit, hrec, Except.ok.injEq, Prod.mk.injEq] at h
    rw [← h.1] at hl
    refine ih ls2 g2 hrec (Or.inr ?_) l hl
    have := tryFit_some_le ll line (if onFirst = true then [] else [' '])
      (pyKeyStr k) (pyStr v) cur hfit
    simp only [List.length_append]
    omega
  | case9 k rest onFirst v hlook e htop hfit hrec ih =>
    intro ls g h hline l hl
    simp only [dite_eq_ite] at hfit
    rw [packPairs, hlook] at h
    simp [htop, hfit, hrec] at h
  | case10 k rest onFirst v hlook ls2 g2 htop hfit hrec ih =>
    intro ls g h hline l hl
    simp only [dite_eq_ite] at hfit
    rw [packPairs, hlook] at h
    simp [htop, hfit, hrec] at h
    obtain ⟨h1, h2⟩ := h
    subst h1
    exact ih ls2 g2 hrec (Or.inl rfl) l hl
  | case11 k rest line onFirst v hlook htop hfit hR e hrec =>
    intro ls g h hline l hl
    simp only [dite_eq_ite] at hfit
    rw [packPairs, hlook] at h
    simp only [if_neg htop, hfit, dif_neg hR, hrec] at h
    cases h
  | case12 k rest line onFirst v hlook htop hfit hR ls2 g2 hrec ih =>
    intro ls g h hline l hl
    simp only [dite_eq_ite] at hfit
    rw [packPairs, hlook] at h
    simp only [if_neg htop, hfit, dif_neg hR, hrec, Except.ok.injEq,
      Prod.mk.injEq] at h
    rw [← h.1] at hl
    rcases List.mem_cons.1 hl with hll | hll
    · subst hll
      rcases hline with hline | hline
      · exact absurd hline hR
      · omega
    · exact ih ls2 g2 hrec (Or.inl rfl) l hll

/-! ### Completeness of the packing loops under a sufficient budget -/

/-- Helper: an appended fragment makes a line strictly longer than the
indent prefix, so the line is no longer the bare indented line. -/
theorem append_ne_indent (indentE line cur : Str)
    (hpre : indentE <+: line) (hcur : 0 < cur.length) :
    line ++ cur ≠ indentE := by
  intro heq
  have h1 : indentE.length ≤ line.length := List.IsPrefix.length_le hpre
  have h2 : (line ++ cur).length = indentE.length := by rw [heq]
  simp only [List.length_append] at h2
  omega

set_option maxHeartbeats 800000 in
/-- When `log_limit` is at least the indent width plus 5, the dict packing
loop drops no pair: its ghost trace lists every processed key exactly once,
in order, paired with its stringified looked-up value. -/
theorem packPairs_ghost (es : List (PyKey × PyVal)) (ll : Nat) (indentE : Str)
    (h5 : indentE.length + 5 ≤ ll) :
    ∀ ks line onFirst, ∀ ls : List Str, ∀ g : List (Str × Str),
      packPairs es ll indentE ks line onFirst = .ok (ls, g) →
      indentE <+: line →
      (line = indentE → onFirst = true) →
      g = ks.map (fun k => (pyKeyStr k,
        pyStr ((dictLookup es (.ks (pyKeyStr k))).getD .vNone))) := by
  intro ks line onFirst
  induction ks, line, onFirst using packPairs.induct es ll indentE with
  | case1 line onFirst =>
    intro ls g h hpre hfirst
    rw [packPairs] at h
    split at h <;> simp only [Except.ok.injEq, Prod.mk.injEq] at h <;>
      rw [← h.2] <;> simp
  | case2 k rest line onFirst hlook =>
    intro ls g h hpre hfirst
    rw [packPairs, hlook] at h
    cases h
  | case3 k rest line onFirst v hlook htop cur hfit e hrec =>
    intro ls g h hpre hfirst
    rw [packPairs, hlook] at h
    simp only [if_pos htop, hfit, hrec] at h
    cases h
  | case4 k rest line onFirst v hlook htop cur hfit ls2 g2 hrec ih =>
    intro ls g h hpre hfirst
    rw [packPairs, hlook] at h
    simp only [if_pos htop, hfit, hrec, Except.ok.injEq, Prod.mk.injEq] at h
    rw [← h.2]
    have hcur := tryFit_some_pos ll indentE [] (pyKeyStr k) (pyStr v) cur hfit
    have hg2 := ih ls2 g2 hrec (List.prefix_append indentE cur)
      (fun heq => absurd heq (append_ne_indent indentE indentE cur
        (List.prefix_refl indentE) hcur))
    rw [hg2]
    simp [hlook]
  | case5 k rest line onFirst v hlook htop hfit e hrec =>
    intro ls g h hpre hfirst
    exact absurd hfit (tryFit_fresh_ne_none ll indentE (pyKeyStr k) (pyStr v) h5)
  | case6 k rest line onFirst v hlook htop hfit ls2 g2 hrec ih =>
    intro ls g h hpre hfirst
    exact absurd hfit (tryFit_fresh_ne_none ll indentE (pyKeyStr k) (pyStr v) h5)
  | case7 k rest line onFirst v hlook htop cur hfit e hrec =>
    intro ls g h hpre hfirst
    simp only [dite_eq_ite] at hfit
    rw [packPairs, hlook] at h
    simp only [if_neg htop, hfit, hrec] at h
    cases h
  | case8 k rest line onFirst v hlook htop cur hfit ls2 g2 hrec ih =>
    intro ls g h hpre hfirst
    simp only [dite_eq_ite] at hfit
    rw [packPairs, hlook] at h
    simp only [if_neg htop, hfit, hrec, Except.ok.injEq, Prod.mk.injEq] at h
    rw [← h.2]
    have hcur := tryFit_some_pos ll line (if onFirst = true then [] else [' '])
      (pyKeyStr k) (pyStr v) cur hfit
    have hg2 := ih ls2 g2 hrec
      (List.IsPrefix.trans hpre (List.prefix_append line cur))
      (fun heq => absurd heq (append_ne_indent indentE line cur hpre hcur))
    rw [hg2]
    simp [hlook]
  | case9 k rest onFirst v hlook e htop hfit hrec ih =>
    intro ls g h hpre hfirst
    simp only [dite_eq_ite, hfirst rfl, if_pos] at hfit
    exact absurd hfit (tryFit_fresh_ne_none ll indentE (pyKeyStr k) (pyStr v) h5)
  | case10 k rest onFirst v hlook ls2 g2 htop hfit hrec ih =>
    intro ls g h hpre hfirst
    simp only [dite_eq_ite, hfirst rfl, if_pos] at hfit
    exact absurd hfit (tryFit_fresh_ne_none ll indentE (pyKeyStr k) (pyStr v) h5)
  | case11 k rest line onFirst v hlook htop hfit hR e hrec =>
    intro ls g h hpre hfirst
    simp only [dite_eq_ite] at hfit
    rw [packPairs, hlook] at h
    simp only [if_neg htop, hfit, dif_neg hR, hrec] at h
    cases h
  | case12 k rest line onFirst v hlook htop hfit hR ls2 g2 hrec ih =>
    intro ls g h hpre hfirst
    simp only [dite_eq_ite] at hfit
    rw [packPairs, hlook] at h
    simp only [if_neg htop, hfit, dif_neg hR, hrec, Except.ok.injEq,
      Prod.mk.injEq] at h
    rw [← h.2]
    exact ih ls2 g2 hrec (List.prefix_refl indentE) (fun _ => rfl)

set_option maxHeartbeats 800000 in
/-- Every line flushed by the list packing loop is bounded by
`max log_limit (indent width)`. -/
theorem packElems_lines_le (ll : Nat) (indentE : Str) :
    ∀ elems line onFirst, ∀ ls : List Str, ∀ g : List (Nat × Str),
      packElems ll indentE elems line onFirst = (ls, g) →
      (line = indentE ∨ line.length ≤ ll) →
      ∀ l ∈ ls, l.length ≤ max ll indentE.length := by
  intro elems line onFirst
  induction elems, line, onFirst using packElems.induct ll indentE with
  | case1 line onFirst =>
    intro ls g h hline l hl
    rw [packElems] at h
    split at h <;> simp only [Prod.mk.injEq] at h <;> rw [← h.1] at hl
    · simp at hl
    · simp at hl
      subst hl
      rcases hline with hline | hline
      · simp_all
      · omega
  | case2 i elem rest line onFirst htop cur hfit ls2 g2 hrec ih =>
    intro ls g h hline l hl
    rw [packElems] at h
    simp only [if_pos htop, hfit, hrec, Prod.mk.injEq] at h
    rw [← h.1] at hl
    rcases List.mem_cons.1 hl with hll | hll
    · subst hll
      rcases hline with hline | hline
      · subst hline; omega
      · omega
    · refine ih ls2 g2 hrec (Or.inr ?_) l hll
      have := tryFitElem_some_le ll indentE [] (['['] ++ natStr i ++ lit "]=")
        elem cur hfit
      simp only [List.length_append]
      omega
  | case3 i elem rest line onFirst htop hfit ls2 g2 hrec ih =>
    intro ls g h hline l hl
    rw [packElems] at h
    simp only [if_pos htop, hfit, hrec, Prod.mk.injEq] at h
    rw [← h.1] at hl
    rcases List.mem_cons.1 hl with hll | hll
    · subst hll
      rcases hline with hline | hline
      · subst hline; omega
      · omega
    · exact ih ls2 g2 hrec (Or.inl rfl) l hll
  | case4 i elem rest line onFirst htop cur hfit ls2 g2 hrec ih =>
    intro ls g h hline l hl
    simp only [dite_eq_ite] at hfit
    rw [packElems] at h
    simp only [if_neg htop, hfit, hrec, Prod.mk.injEq] at h
    rw [← h.1] at hl
    refine ih ls2 g2 hrec (Or.inr ?_) l hl
    have := tryFitElem_some_le ll line (if onFirst = true then [] else [' '])
      (['['] ++ natStr i ++ lit "]=") elem cur hfit
    simp only [List.length_append]
    omega
  | case5 i elem rest onFirst htop hfit ih =>
    intro ls g h hline l hl
    simp only [dite_eq_ite] at hfit
    rw [packElems] at h
    simp only [if_neg htop, hfit, dif_pos rfl] at h
    exact ih ls g h (Or.inl rfl) l hl
  | case6 i elem rest line onFirst htop hfit hR ls2 g2 hrec ih =>
    intro ls g h hline l hl
    simp only [dite_eq_ite] at hfit
    rw [packElems] at h
    simp only [if_neg htop, hfit, dif_neg hR, hrec, Prod.mk.injEq] at h
    rw [← h.1] at hl
    rcases List.mem_cons.1 hl with hll | hll
    · subst hll
      rcases hline with hline | hline
      · exact absurd hline hR
      · omega
    · exact ih ls2 g2 hrec (Or.inl rfl) l hll

set_option maxHeartbeats 800000 in
/-- When every sampled element's index prefix leaves at least two budget
characters beyond the indent, the list packing loop drops no element: the
ghost trace is exactly the processed element list. -/
theorem packElems_ghost (ll : Nat) (indentE : Str) :
    ∀ elems line onFirst, ∀ ls : List Str, ∀ g : List (Nat × Str),
      packElems ll indentE elems line onFirst = (ls, g) →
      indentE <+: line →
      (line = indentE → onFirst = true) →
      (∀ p ∈ elems,
        indentE.length + (['['] ++ natStr p.1 ++ lit "]=").length + 2 ≤ ll) →
      g = elems := by
  intro elems line onFirst
  induction elems, line, onFirst using packElems.induct ll indentE with
  | case1 line onFirst =>
    intro ls g h hpre hfirst hfit5
    rw [packElems] at h
    split at h <;> simp only [Prod.mk.injEq] at h <;> rw [← h.2]
  | case2 i elem rest line onFirst htop cur hfit ls2 g2 hrec ih =>
    intro ls g h hpre hfirst hfit5
    rw [packElems] at h
    simp only [if_pos htop, hfit, hrec, Prod.mk.injEq] at h
    rw [← h.2]
    have hcur : 0 < cur.length := by
      have h1 := tryFitElem_some_pos ll indentE [] (['['] ++ natStr i ++ lit "]=")
        elem cur hfit
      have h2 : 0 < (['['] ++ natStr i ++ lit "]=").length := by simp
      omega
    have hg2 := ih ls2 g2 hrec (List.prefix_append indentE cur)
      (fun heq => absurd heq (append_ne_indent indentE indentE cur
        (List.prefix_refl indentE) hcur))
      (fun p hp => hfit5 p (List.mem_cons_of_mem _ hp))
    rw [hg2]
  | case3 i elem rest line onFirst htop hfit ls2 g2 hrec ih =>
    intro ls g h hpre hfirst hfit5
    have h2 := hfit5 (i, elem) (List.mem_cons_self _ _)
    dsimp only at h2
    exact absurd hfit (tryFitElem_fresh_ne_none ll indentE
      (['['] ++ natStr i ++ lit "]=") elem h2)
  | case4 i elem rest line onFirst htop cur hfit ls2 g2 hrec ih =>
    intro ls g h hpre hfirst hfit5
    simp only [dite_eq_ite] at hfit
    rw [packElems] at h
    simp only [if_neg htop, hfit, hrec, Prod.mk.injEq] at h
    rw [← h.2]
    have hcur : 0 < cur.length := by
      have h1 := tryFitElem_some_pos ll line (if onFirst = true then [] else [' '])
        (['['] ++ natStr i ++ lit "]=") elem cur hfit
      have h2 : 0 < (['['] ++ natStr i ++ lit "]=").length := by simp
      omega
    have hg2 := ih ls2 g2 hrec
      (List.IsPrefix.trans hpre (List.prefix_append line cur))
      (fun heq => absurd heq (append_ne_indent indentE line cur hpre hcur))
      (fun p hp => hfit5 p (List.mem_cons_of_mem _ hp))
    rw [hg2]
  | case5 i elem rest onFirst htop hfit ih =>
    intro ls g h hpre hfirst hfit5
    simp only [dite_eq_ite, hfirst rfl, if_pos] at hfit
    have h2 := hfit5 (i, elem) (List.mem_cons_self _ _)
    dsimp only at h2
    exact absurd hfit (tryFitElem_fresh_ne_none ll indentE
      (['['] ++ natStr i ++ lit "]=") elem h2)
  | case6 i elem rest line onFirst htop hfit hR ls2 g2 hrec ih =>
    intro ls g h hpre hfirst hfit5
    simp only [dite_eq_ite] at hfit
    rw [packElems] at h
    simp only [if_neg htop, hfit, dif_neg hR, hrec, Prod.mk.injEq] at h
    rw [← h.2]
    exact ih ls2 g2 hrec (List.prefix_refl indentE) (fun _ => rfl) hfit5

/-! ### Key lines of the complex-dict branches -/

/-- The payload of a string key (placeholder on other keys). -/
def ksStr : PyKey → Str
  | .ks s => s
  | _ => []

theorem keyLines_ok (indentK : Str) (es : List (PyKey × PyVal))
    (hk : ∀ e ∈ es, ∃ s, e.1 = PyKey.ks s) :
    keyLines indentK es = .ok (es.map (fun e => indentK ++ ksStr e.1)) := by
  induction es with
  | nil => rfl
  | cons e rest ih =>
    obtain ⟨s, hs⟩ := hk e (List.mem_cons_self _ _)
    obtain ⟨k, v⟩ := e
    simp only at hs
    subst hs
    rw [keyLines, ih (fun e he => hk e (List.mem_cons_of_mem _ he))]
    simp [ksStr]

theorem keyLinesL_ok (indentK : Str) (es : List (PyKey × PyVal))
    (hk : ∀ e ∈ es, ∃ s, e.1 = PyKey.ks s) :
    keyLinesL indentK es
      = .ok (es.map (fun e => indentK ++ ksStr e.1 ++ ['\n'])) := by
  induction es with
  | nil => rfl
  | cons e rest ih =>
    obtain ⟨s, hs⟩ := hk e (List.mem_cons_self _ _)
    obtain ⟨k, v⟩ := e
    simp only at hs
    subst hs
    rw [keyLinesL, ih (fun e he => hk e (List.mem_cons_of_mem _ he))]
    simp [ksStr]

/-- The concatenated `do_log` renderings of a list of values. -/
def runBlocksL (ll lvl : Nat) : List PyVal → Except RunErr (List Str)
  | [] => .ok []
  | v :: vs =>
    match runL ll [(v, lvl)] with
    | .error e => .error e
    | .ok a =>
      match runBlocksL ll lvl vs with
      | .error e => .error e
      | .ok b => .ok (a ++ b)

theorem runL_frames (ll lvl : Nat) (vs : List PyVal) :
    runL ll (vs.map (fun v => (v, lvl))) = runBlocksL ll lvl vs := by
  induction vs with
  | nil => simp [runL_nil, runBlocksL]
  | cons v vs ih =>
    have h := runL_append ll [(v, lvl)] (vs.map (fun v => (v, lvl)))
    simp only [List.map_cons, List.singleton_append] at h
    simp only [List.map_cons]
    rw [h, ih, runBlocksL]

/-! ### The JSON-encoding variant `_do_log`

`BaseLambdaHandler.do_log` (src/app_common/base_lambda_handler.py, line 502)
calls `app_utils._do_log`, a JSON-encoding renderer whose definition is not
in the source snapshot (only its unit tests and callers are), so it is
modelled from the specification here. -/

/-- A JSON double quote, a `\x7b` and a `\x7d`, written numerically. -/
def dquote : Char := Char.ofNat 34

/-- Opening curly brace character. -/
def obrace : Char := Char.ofNat 123

/-- Closing curly brace character. -/
def cbrace : Char := Char.ofNat 125

/-- Wrap a string in JSON double quotes. -/
def quoteJ (s : Str) : Str := dquote :: (s ++ [dquote])

mutual
/-- Modelled from the spec: `app_utils._do_log`, absent from
`src/app_common/app_utils.py` (only its unit tests and its callers are in
the snapshot).  Per the spec it renders any value as "a single string
containing a JSON-like encoding of the value with all contained scalars
length-truncated"; sequences show at most `listSampleSize` elements plus a
`"<...and N more>"` count summary; booleans keep their literal textual
form; no error is ever surfaced to the caller (total function). -/
def jsonEnc (ll ss : Nat) : PyVal → Str
  | .vStr s => quoteJ (truncStr s ll)
  | .vInt n => intStr n
  | .vBool b => quoteJ (pyStr (.vBool b))
  | .vNone => lit "null"
  | .vDict es => obrace :: (List.intercalate (lit ", ")
      (jsonEncEntries ll ss es) ++ [cbrace])
  | .vList l =>
    ['['] ++ List.intercalate (lit ", ")
      (jsonEncElems ll ss ss l
        ++ (if ss < l.length
            then [quoteJ (lit "<...and " ++ natStr (l.length - ss)
              ++ lit " more>")]
            else []))
      ++ [']']
/-- Modelled from the spec: the encoded `"key": value` entries of a dict. -/
def jsonEncEntries (ll ss : Nat) : List (PyKey × PyVal) → List Str
  | [] => []
  | (k, v) :: rest =>
    (quoteJ (pyKeyStr k) ++ lit ": " ++ jsonEnc ll ss v)
      :: jsonEncEntries ll ss rest
/-- Modelled from the spec: the first `fuel` encoded elements of a list
(the sequence sample). -/
def jsonEncElems (ll ss : Nat) : Nat → List PyVal → List Str
  | _, [] => []
  | 0, _ :: _ => []
  | fuel + 1, v :: rest => jsonEnc ll ss v :: jsonEncElems ll ss fuel rest
end

/-- Modelled from the spec: `BaseLambdaHandler.do_log(obj, title,
log_limit=5000)` forwards to `app_utils._do_log`; the handler lifecycle
(`_log_basic_info`) calls it for the event, the context and the body of
every invocation and expects it never to throw.  The printed lines are the
optional title followed by the encoding. -/
def BaseLambdaHandler_do_log (obj : PyVal) (title : Option Str) (ll ss : Nat) :
    Except RunErr (List Str) :=
  .ok ((match title with
        | some t => if t = [] then [] else [t]
        | none => []) ++ [jsonEnc ll ss obj])

/-! ### Claim theorems -/

/-- C2 (code bug): `do_log_2` does not complete without raising on every
well-formed input: for the numeric-key dict `{1: "x"}` the simple-key
packing branch looks the value up via `current_obj[str(key)]`, i.e.
`current_obj["1"]`, and raises `KeyError` (line 219 of `app_utils.py`). -/
theorem c2_numeric_key_keyerror :
    do_log_2 (.vDict [(.ki 1, .vStr (lit "x"))]) 150 2
      = .error (.keyError (lit "1")) := by
  simp [do_log_2, run_cons, run_nil, step, packPairs, pySort, insSorted,
    sortMeasure, dictLookup, pyKeyEq, pyKeyStr, pyKeySimple, pyValSimple,
    indent2, intStr, lit]
  decide

/-- C3: the scalar branch of `do_log_2` (and of `do_log`) renders a string
leaf as the string itself when it fits the limit, and as its first
`log_limit` characters followed by the one-character ellipsis otherwise;
the rendered leaf content is at most `log_limit + 1` characters (the indent
is prepended outside the truncation). -/
theorem c3_scalar_truncation (s : Str) (ll ss level : Nat) :
    run ll ss [(.vStr s, level)] = .ok [indent2 level ++ truncStr s ll]
    ∧ runL ll [(.vStr s, level)] = .ok [indent3 level ++ truncStr s ll ++ ['\n']]
    ∧ (s.length ≤ ll → truncStr s ll = s)
    ∧ (ll < s.length → truncStr s ll = s.take ll ++ ellipsisChars)
    ∧ (truncStr s ll).length ≤ ll + ellipsisChars.length := by
  refine ⟨?_, ?_, ?_, ?_, ?_⟩
  · simp [run_cons, run_nil, step]
  · simp [runL_cons, runL_nil, stepL]
  · intro hle
    simp [truncStr, Nat.not_lt.2 hle]
  · intro hlt
    simp [truncStr, hlt]
  · rw [truncStr]
    split
    · simp only [List.length_append, List.length_take, ellipsisChars,
        List.length_singleton]
      omega
    · simp only [ellipsisChars, List.length_singleton]
      omega

/-- C3 witness: a short string is rendered unchanged, a long one truncated. -/
theorem c3_scalar_truncation_witness :
    run 150 2 [(.vStr (lit "abc"), 0)] = .ok [indent2 0 ++ truncStr (lit "abc") 150]
    ∧ truncStr (lit "abc") 150 = lit "abc"
    ∧ truncStr (lit "abcd") 2 = (lit "abcd").take 2 ++ ellipsisChars := by
  refine ⟨(c3_scalar_truncation (lit "abc") 150 2 0).1,
    (c3_scalar_truncation (lit "abc") 150 2 0).2.2.1 (by decide),
    (c3_scalar_truncation (lit "abcd") 2 150 0).2.2.2.1 (by decide)⟩

/-- C7 (spec-modelled): the handler logging entry point
`BaseLambdaHandler.do_log` — which forwards to the modelled
`app_utils._do_log` — completes without throwing for every object and
title: it always returns an `ok` output. -/
theorem c7_handler_do_log_total (obj : PyVal) (title : Option Str) (ll ss : Nat) :
    ∃ out, BaseLambdaHandler_do_log obj title ll ss = .ok out :=
  ⟨_, rfl⟩

set_option maxRecDepth 4000 in
/-- C8: on `{"key1": "value1", "key2": "a"*200}` with `log_limit = 50`,
`do_log_2` emits the dict header and one packed line holding `key1=value1`
in full and `key2=` followed by 30 `a`s and the ellipsis; both lines stay
within 50 characters and the packed line ends in the ellipsis marker. -/
theorem c8_concrete_packing :
    do_log_2 (.vDict [(.ks (lit "key1"), .vStr (lit "value1")),
        (.ks (lit "key2"), .vStr (List.replicate 200 'a'))]) 50 2
      = .ok [dictHeader 0 2,
          indent2 1 ++ lit "key1=value1 key2=" ++ List.replicate 30 'a'
            ++ ellipsisChars]
    ∧ (lit "key1=value1") <:+: (indent2 1 ++ lit "key1=value1 key2="
        ++ List.replicate 30 'a' ++ ellipsisChars)
    ∧ (dictHeader 0 2).length ≤ 50
    ∧ (indent2 1 ++ lit "key1=value1 key2=" ++ List.replicate 30 'a'
        ++ ellipsisChars).length ≤ 50
    ∧ (indent2 1 ++ lit "key1=value1 key2=" ++ List.replicate 30 'a'
        ++ ellipsisChars).getLast? = some '…' := by
  refine ⟨?_, ?_, ?_, ?_, ?_⟩
  · simp [do_log_2, run_cons, run_nil, step, packPairs, pySort, insSorted,
      sortMeasure, dictLookup, pyKeyEq, pyKeyStr, pyKeySimple, pyValSimple,
      indent2, pyStr, tryFit, ellipsisChars, ellipsisLen, lit]
  · decide
  · decide
  · decide
  · decide

/-- C10: wherever a list is rendered, the first emitted line is the header
stating the list's exact total length (`Size = N` with `N` the actual
element count), whatever `list_sample_size` and however many elements are
then sampled. -/
theorem c10_list_header_size (l : List PyVal) (level ll ss : Nat)
    (lines : List Str) (h : run ll ss [(.vList l, level)] = .ok lines) :
    ∃ rest, lines = listHeader level l.length :: rest := by
  rw [run_cons] at h
  rw [step] at h
  dsimp only at h
  by_cases hs : l.all pyValSimple = true
  · rw [if_pos hs] at h
    dsimp only at h
    cases hp : run ll ss ([] ++ []) with
    | error e => rw [hp] at h; cases h
    | ok more =>
      rw [hp] at h
      simp only [Except.ok.injEq] at h
      exact ⟨_, h.symm⟩
  · rw [if_neg hs] at h
    dsimp only at h
    cases hp : run ll ss ((List.take 2 l).map (fun v => (v, level + 1)) ++ []) with
    | error e => rw [hp] at h; cases h
    | ok more =>
      rw [hp] at h
      simp only [Except.ok.injEq] at h
      exact ⟨more, h.symm⟩

/-- C10 witness: the empty list at top level renders as its header alone,
bearing `Size = 0`. -/
theorem c10_list_header_size_witness :
    ∃ rest, [listHeader 0 0] = listHeader 0 0 :: rest :=
  c10_list_header_size [] 0 150 2 [listHeader 0 0]
    (by simp [run_cons, run_nil, step, packElems])

/-- Truncated scalar content never exceeds `log_limit` plus the ellipsis. -/
theorem truncStr_len_le (s : Str) (ll : Nat) :
    (truncStr s ll).length ≤ ll + ellipsisChars.length := by
  rw [truncStr]
  split
  · simp only [List.length_append, List.length_take, ellipsisChars,
      List.length_singleton]
    omega
  · simp only [ellipsisChars, List.length_singleton]
    omega

/-- Rendering the values of a dict's entries equals rendering the value
list. -/
theorem run_entry_frames (ll ss lvl : Nat) (es : List (PyKey × PyVal)) :
    run ll ss (es.map (fun e => (e.2, lvl))) = runBlocks ll ss lvl (es.map Prod.snd) := by
  have heq : es.map (fun e => (e.2, lvl)) = (es.map Prod.snd).map (fun v => (v, lvl)) := by
    rw [List.map_map]
    rfl
  rw [heq, run_frames]

theorem runL_entry_frames (ll lvl : Nat) (es : List (PyKey × PyVal)) :
    runL ll (es.map (fun e => (e.2, lvl))) = runBlocksL ll lvl (es.map Prod.snd) := by
  have heq : es.map (fun e => (e.2, lvl)) = (es.map Prod.snd).map (fun v => (v, lvl)) := by
    rw [List.map_map]
    rfl
  rw [heq, runL_frames]

/-- C1 counterexample: for the empty dict with `log_limit = 10` the single
emitted line is the type-marker header, which is 37 characters long, so not
every emitted line is bounded by `log_limit`. -/
theorem c1_counterexample :
    do_log_2 (.vDict []) 10 2 = .ok [dictHeader 0 0]
    ∧ 10 < (dictHeader 0 0).length := by
  constructor
  · simp [do_log_2, run_cons, run_nil, step, packPairs, pySort, indent2]
  · decide

/-- C1 amended: only the packed content lines respect `log_limit` (up to
the indent width): every line after a simple dict's or simple list's header
is at most `max log_limit (indent width)` characters, while the type-marker
header lines themselves are not bounded by `log_limit`, and an indented
string leaf is bounded by indent + `log_limit` + ellipsis instead. -/
theorem c1_amended (es : List (PyKey × PyVal)) (l : List PyVal) (s : Str)
    (level ll ss : Nat) :
    ((es.all (fun e => pyKeySimple e.1) && es.all (fun e => pyValSimple e.2)) = true →
      ∀ lines, run ll ss [(.vDict es, level)] = .ok lines →
        ∃ rest, lines = dictHeader level es.length :: rest
          ∧ ∀ x ∈ rest, x.length ≤ max ll (indent2 (level + 1)).length)
    ∧ (l.all pyValSimple = true →
      ∀ lines, run ll ss [(.vList l, level)] = .ok lines →
        ∃ rest, lines = listHeader level l.length :: rest
          ∧ ∀ x ∈ rest, x.length ≤ max ll (indent2 (level + 1)).length)
    ∧ (∀ lines, run ll ss [(.vStr s, level)] = .ok lines →
        ∀ x ∈ lines, x.length ≤ (indent2 level).length + ll + ellipsisChars.length) := by
  refine ⟨?_, ?_, ?_⟩
  · intro hs lines h
    rw [run_cons, step] at h
    dsimp only at h
    rw [if_pos hs] at h
    cases hp : packPairs es ll (indent2 (level + 1))
        (pySort (sortMeasure es) (es.map Prod.fst)) (indent2 (level + 1)) true with
    | error e => rw [hp] at h; cases h
    | ok p =>
      obtain ⟨ls, g⟩ := p
      rw [hp] at h
      dsimp only at h
      rw [show ([] : List (PyVal × Nat)) ++ [] = [] from rfl, run_nil] at h
      simp only [Except.ok.injEq, List.append_nil] at h
      refine ⟨ls, h.symm, ?_⟩
      exact packPairs_lines_le es ll (indent2 (level + 1)) _ _ _ ls g hp (Or.inl rfl)
  · intro hs lines h
    rw [run_cons, step] at h
    dsimp only at h
    rw [if_pos hs] at h
    dsimp only at h
    rw [show ([] : List (PyVal × Nat)) ++ [] = [] from rfl, run_nil] at h
    simp only [Except.ok.injEq, List.append_nil] at h
    refine ⟨_, h.symm, ?_⟩
    exact packElems_lines_le ll (indent2 (level + 1)) _ _ _ _ _ rfl (Or.inl rfl)
  · intro lines h
    rw [run_cons, step] at h
    dsimp only at h
    rw [show ([] : List (PyVal × Nat)) ++ [] = [] from rfl, run_nil] at h
    simp only [Except.ok.injEq, List.append_nil] at h
    intro x hx
    rw [← h] at hx
    simp only [List.mem_singleton] at hx
    subst hx
    have := truncStr_len_le s ll
    simp only [List.length_append]
    omega

/-- C1 witness: a packed line stays within the budget while the header
line may exceed it. -/
theorem c1_amended_witness :
    ∃ rest, [dictHeader 0 1, indent2 1 ++ lit "a=b"] = dictHeader 0 1 :: rest
      ∧ ∀ x ∈ rest, x.length ≤ max 50 (indent2 1).length := by
  exact (c1_amended [(.ks (lit "a"), .vStr (lit "b"))] [] (lit "h") 0 50 2).1
    (by decide)
    [dictHeader 0 1, indent2 1 ++ lit "a=b"]
    (by simp [run_cons, run_nil, step, packPairs, pySort, insSorted, sortMeasure,
      dictLookup, pyKeyEq, pyKeyStr, pyKeySimple, pyValSimple, indent2, pyStr,
      tryFit, ellipsisChars, ellipsisLen, lit])

/-- C4 counterexample: with `log_limit = 0` (an allowed value of
`log_limit`), the pair `a=b` of `{"a": "b"}` fits no line and is silently
dropped: the emitted lines are the header and a bare indent, and no
emitted line contains `a=b`. -/
theorem c4_counterexample :
    do_log_2 (.vDict [(.ks (lit "a"), .vStr (lit "b"))]) 0 2
      = .ok [dictHeader 0 1, indent2 1]
    ∧ ∀ x ∈ [dictHeader 0 1, indent2 1], ¬ (lit "a=b") <:+: x := by
  constructor
  · simp [do_log_2, run_cons, run_nil, step, packPairs, pySort, insSorted,
      sortMeasure, dictLookup, pyKeyEq, pyKeyStr, pyKeySimple, pyValSimple,
      indent2, pyStr, tryFit, ellipsisChars, ellipsisLen, lit]
  · decide

/-- C4 amended: for a simple dict, provided `log_limit` is at least the
indent width plus 5 (at top level: at least 7), every key/value pair is
appended to exactly one emitted line — the ghost trace of appended pairs is
a permutation of the dict's stringified pairs; for smaller limits pairs can
be silently dropped. -/
theorem c4_amended (es : List (PyKey × PyVal)) (level ll ss : Nat)
    (hs : (es.all (fun e => pyKeySimple e.1)
      && es.all (fun e => pyValSimple e.2)) = true)
    (h5 : (indent2 (level + 1)).length + 5 ≤ ll)
    (ls : List Str) (g : List (Str × Str))
    (hp : packPairs es ll (indent2 (level + 1))
        (pySort (sortMeasure es) (es.map Prod.fst)) (indent2 (level + 1)) true
      = .ok (ls, g)) :
    run ll ss [(.vDict es, level)] = .ok (dictHeader level es.length :: ls)
    ∧ List.Perm g (es.map (fun e => (pyKeyStr e.1,
        pyStr ((dictLookup es (.ks (pyKeyStr e.1))).getD .vNone)))) := by
  constructor
  · rw [run_cons, step]
    dsimp only
    rw [if_pos hs, hp]
    dsimp only
    rw [show ([] : List (PyVal × Nat)) ++ [] = [] from rfl, run_nil]
    simp
  · have hg := packPairs_ghost es ll (indent2 (level + 1)) h5 _ _ _ ls g hp
      (List.prefix_refl _) (fun _ => rfl)
    rw [hg]
    have hperm := List.Perm.map
      (fun k => (pyKeyStr k, pyStr ((dictLookup es (.ks (pyKeyStr k))).getD .vNone)))
      (pySort_perm (sortMeasure es) (es.map Prod.fst))
    simpa [List.map_map, Function.comp] using hperm

/-- C4 witness: at `log_limit = 7` the single pair of `{"a": "b"}` is packed
exactly once. -/
theorem c4_amended_witness :
    run 7 2 [(.vDict [(.ks (lit "a"), .vStr (lit "b"))], 0)]
      = .ok [dictHeader 0 1, indent2 1 ++ lit "a=b"]
    ∧ List.Perm [(lit "a", lit "b")]
        ([((PyKey.ks (lit "a")), PyVal.vStr (lit "b"))].map
          (fun e => (pyKeyStr e.1,
            pyStr ((dictLookup [((PyKey.ks (lit "a")), PyVal.vStr (lit "b"))]
              (.ks (pyKeyStr e.1))).getD .vNone)))) := by
  exact c4_amended [(.ks (lit "a"), .vStr (lit "b"))] 0 7 2 (by decide) (by decide)
    [indent2 1 ++ lit "a=b"] [(lit "a", lit "b")]
    (by simp [packPairs, pySort, insSorted, sortMeasure, dictLookup, pyKeyEq,
      pyKeyStr, pyStr, indent2, tryFit, ellipsisChars, ellipsisLen, lit])

/-- C5 counterexample: for `[[], []]` with `list_sample_size = 1` (a list
longer than the sample size, with complex elements), `do_log_2` renders two
elements — the hardcoded `current_obj[:2]` sample — not one, and emits no
summary marker of the omitted count beyond the header's `Size` field. -/
theorem c5_counterexample :
    do_log_2 (.vList [.vList [], .vList []]) 50 1
      = .ok [listHeader 0 2, listHeader 1 0, listHeader 1 0]
    ∧ List.count (listHeader 1 0)
        [listHeader 0 2, listHeader 1 0, listHeader 1 0] = 2 := by
  constructor
  · simp [do_log_2, run_cons, run_nil, step, packElems, pyValSimple, indent2]
  · decide

/-- C5 amended: a list with a complex element renders exactly
`min(2, len)` elements (the hardcoded `[:2]` sample), regardless of
`list_sample_size`; the empty list renders as the header line alone, not an
error; and when all elements are simple and each index prefix leaves at
least two budget characters, exactly `min(len, list_sample_size)` elements
are packed, each exactly once.  No per-remainder summary marker exists; the
omitted count is recoverable only from the header's `Size` field. -/
theorem c5_amended :
    (∀ (l : List PyVal) (level ll ss : Nat), l.all pyValSimple = false →
      run ll ss [(.vList l, level)] =
        (match runBlocks ll ss (level + 1) (l.take 2) with
         | .error e => .error e
         | .ok blocks => .ok (listHeader level l.length :: blocks)))
    ∧ (∀ level ll ss : Nat, run ll ss [(.vList [], level)] = .ok [listHeader level 0])
    ∧ (∀ (l : List PyVal) (level ll ss : Nat), l.all pyValSimple = true →
        (∀ p ∈ (List.take (min l.length ss) l).enum.map (fun p => (p.1, pyStr p.2)),
          (indent2 (level + 1)).length
            + (['['] ++ natStr p.1 ++ lit "]=").length + 2 ≤ ll) →
        (packElems ll (indent2 (level + 1))
            ((List.take (min l.length ss) l).enum.map (fun p => (p.1, pyStr p.2)))
            (indent2 (level + 1)) true).2
          = (List.take (min l.length ss) l).enum.map (fun p => (p.1, pyStr p.2))) := by
  refine ⟨?_, ?_, ?_⟩
  · intro l level ll ss hl
    rw [run_cons, step]
    dsimp only
    rw [if_neg (by simp [hl])]
    dsimp only
    rw [List.append_nil, run_frames]
    cases runBlocks ll ss (level + 1) (l.take 2) <;> rfl
  · intro level ll ss
    simp [run_cons, run_nil, step, packElems]
  · intro l level ll ss hl hfit
    exact packElems_ghost ll (indent2 (level + 1)) _ _ _ _ _ rfl
      (List.prefix_refl _) (fun _ => rfl) hfit

/-- C5 witness: a complex singleton list renders its sampled element; the
empty list renders as its header; a simple singleton is packed exactly
once. -/
theorem c5_amended_witness :
    run 50 2 [(.vList [.vNone], 0)] =
      (match runBlocks 50 2 1 ([PyVal.vNone].take 2) with
       | .error e => .error e
       | .ok blocks => .ok (listHeader 0 1 :: blocks))
    ∧ run 50 2 [(.vList [], 0)] = .ok [listHeader 0 0]
    ∧ (packElems 50 (indent2 1)
        ((List.take (min [PyVal.vStr (lit "x")].length 2) [PyVal.vStr (lit "x")]).enum.map
          (fun p => (p.1, pyStr p.2)))
        (indent2 1) true).2
      = (List.take (min [PyVal.vStr (lit "x")].length 2) [PyVal.vStr (lit "x")]).enum.map
          (fun p => (p.1, pyStr p.2)) := by
  exact ⟨c5_amended.1 [.vNone] 0 50 2 (by decide),
    c5_amended.2.1 0 50 2,
    c5_amended.2.2 [.vStr (lit "x")] 0 50 2 (by decide) (by decide)⟩

/-- C6 counterexample: for `{"k1": [], "k2": {}}` (two complex values) the
key header line of `k2` is emitted before that of `k1` — reverse insertion
order — and both key lines precede both value renderings, so no key header
is directly followed by its value's rendering. -/
theorem c6_counterexample :
    do_log_2 (.vDict [(.ks (lit "k1"), .vList []),
        (.ks (lit "k2"), .vDict [])]) 150 2
      = .ok [dictHeader 0 2, indent2 1 ++ lit "k2", indent2 1 ++ lit "k1",
          listHeader 2 0, dictHeader 2 0]
    ∧ List.indexOf (indent2 1 ++ lit "k2")
        [dictHeader 0 2, indent2 1 ++ lit "k2", indent2 1 ++ lit "k1",
          listHeader 2 0, dictHeader 2 0]
      < List.indexOf (indent2 1 ++ lit "k1")
        [dictHeader 0 2, indent2 1 ++ lit "k2", indent2 1 ++ lit "k1",
          listHeader 2 0, dictHeader 2 0] := by
  constructor
  · simp [do_log_2, run_cons, run_nil, step, packPairs, packElems, pySort,
      keyLines, insSorted, sortMeasure, dictLookup, pyKeyEq, pyKeyStr,
      pyKeySimple, pyValSimple, indent2, pyStr, lit]
  · decide

/-- C6 amended: on a dict taken through the complex branch (of `do_log_2`,
and on any dict for `do_log`) with string keys, the output is the header,
then ALL key header lines in reverse insertion order, then the value
renderings in insertion order — key lines are not interleaved with their
values. -/
theorem c6_amended (es : List (PyKey × PyVal)) (level ll ss : Nat)
    (hk : ∀ e ∈ es, ∃ s, e.1 = PyKey.ks s) :
    ((es.all (fun e => pyKeySimple e.1) && es.all (fun e => pyValSimple e.2)) = false →
      run ll ss [(.vDict es, level)] =
        (match runBlocks ll ss (level + 2) (es.map Prod.snd) with
         | .error e => .error e
         | .ok blocks =>
           .ok (dictHeader level es.length
             :: (es.reverse.map (fun e => indent2 (level + 1) ++ ksStr e.1)
               ++ blocks))))
    ∧ runL ll [(.vDict es, level)] =
        (match runBlocksL ll (level + 2) (es.map Prod.snd) with
         | .error e => .error e
         | .ok blocks =>
           .ok (dictHeaderL level
             :: (es.reverse.map (fun e => indent3 (level + 1) ++ ksStr e.1 ++ ['\n'])
               ++ blocks))) := by
  constructor
  · intro hc
    rw [run_cons, step]
    dsimp only
    rw [if_neg (by simp [hc])]
    rw [keyLines_ok _ _ (fun e he => hk e (List.mem_reverse.1 he))]
    dsimp only
    rw [List.append_nil, run_entry_frames]
    cases runBlocks ll ss (level + 2) (es.map Prod.snd) <;> rfl
  · rw [runL_cons, stepL]
    rw [keyLinesL_ok _ _ (fun e he => hk e (List.mem_reverse.1 he))]
    dsimp only
    rw [List.append_nil, runL_entry_frames]
    cases runBlocksL ll (level + 2) (es.map Prod.snd) <;> rfl

/-- C6 witness: the two-entry complex dict of the counterexample input,
rendered through the amended description. -/
theorem c6_amended_witness :
    run 150 2 [(.vDict [(.ks (lit "k1"), .vList []),
        (.ks (lit "k2"), .vDict [])], 0)] =
      (match runBlocks 150 2 2
          ([(PyKey.ks (lit "k1"), PyVal.vList []),
            (PyKey.ks (lit "k2"), PyVal.vDict [])].map Prod.snd) with
       | .error e => .error e
       | .ok blocks =>
         .ok (dictHeader 0 2
           :: ([(PyKey.ks (lit "k1"), PyVal.vList []),
              (PyKey.ks (lit "k2"), PyVal.vDict [])].reverse.map
                (fun e => indent2 1 ++ ksStr e.1) ++ blocks))) := by
  exact (c6_amended [(.ks (lit "k1"), .vList []), (.ks (lit "k2"), .vDict [])]
    0 150 2 (by intro e he; fin_cases he <;> exact ⟨_, rfl⟩)).1 (by decide)
